import Mathlib

/-!
# Verification of the voici tree exporter (`voici/tree_exporter.py`)

Shallow embedding of the recursive tree-export algorithm:

* `path_to_content` — the path classifier (`path_to_content` in the source);
* `generate_breadcrumbs`, `generate_page_title` — the navigation deriver;
* `generate_contents` — the streaming tree-export driver
  (`VoiciTreeExporter.generate_contents`).

Python strings are modelled as `List Char` (`Str`); a filesystem snapshot is
the inductive `FSNode` (directory listings in `iterdir` order); the lazy
artifact stream of the generator is modelled as the list of pairs yielded
before the generator either finishes (`none`) or raises (`some error`).
The Jinja template engine and the notebook render engine are external
collaborators and enter the model as opaque function parameters.
-/

/-- Python strings, modelled as their character sequences. -/
abbrev Str := List Char

/-- `str.split(sep)` for a single-character separator: `"".split` is `[""]`,
separators at the ends produce empty fields. -/
def splitChars (sep : Char) : Str → List Str
  | [] => [[]]
  | c :: rest =>
    match splitChars sep rest with
    | [] => [[]]
    | h :: t => if c = sep then [] :: h :: t else (c :: h) :: t

/-- `sep.join(pieces)` for a single-character separator. -/
def joinChars (sep : Char) : List Str → Str
  | [] => []
  | [s] => s
  | s :: rest => s ++ sep :: joinChars sep rest

/-- Python `<=` on strings: lexicographic comparison by code points. -/
def strLe : Str → Str → Bool
  | [], _ => true
  | _ :: _, [] => false
  | a :: as, b :: bs => if a = b then strLe as bs else decide (a < b)

/-- Index of the last `'.'` in a filename, if any (`name.rfind('.')`). -/
def lastDotIdx : Str → Option Nat
  | [] => none
  | c :: rest =>
    match lastDotIdx rest with
    | some i => some (i + 1)
    | none => if c = '.' then some 0 else none

/-- `pathlib.PurePath.stem` of a filename: the name with its last dot-suffix
removed, provided that dot is at an interior position (`0 < i < len - 1`). -/
def pStem (name : Str) : Str :=
  match lastDotIdx name with
  | some i => if 0 < i ∧ i < name.length - 1 then name.take i else name
  | none => name

/-- `pathlib.PurePath.suffix` of a filename. -/
def pSuffix (name : Str) : Str :=
  match lastDotIdx name with
  | some i => if 0 < i ∧ i < name.length - 1 then name.drop i else []
  | none => []

/-- Python `s.strip("/")`: remove leading and trailing slashes. -/
def stripSlash (s : Str) : Str :=
  ((s.dropWhile (fun c => c = '/')).reverse.dropWhile (fun c => c = '/')).reverse

/-- `jupyter_server.utils.url_path_join`: strip slashes off every piece, join
the non-empty ones with `/`, restore an initial/final slash of the outer
pieces, and collapse the degenerate `"//"` result. -/
def url_path_join (pieces : List Str) : Str :=
  if pieces = [] then [] else
  let initial := (pieces.headD []).head? = some '/'
  let final := (pieces.getLastD []).getLast? = some '/'
  let result := joinChars '/' ((pieces.map stripSlash).filter (fun s => s ≠ []))
  let result := if initial then '/' :: result else result
  let result := if final then result ++ ['/'] else result
  if result = "//".toList then "/".toList else result

/-- Upper-case hexadecimal digit of `n < 16` (as used by `urllib.parse.quote`). -/
def hexDigit (n : Nat) : Char :=
  if n < 10 then Char.ofNat ('0'.toNat + n) else Char.ofNat ('A'.toNat + n - 10)

/-- UTF-8 encoding of one code point, as byte values. -/
def utf8Bytes (c : Char) : List Nat :=
  let n := c.toNat
  if n < 0x80 then [n]
  else if n < 0x800 then [0xC0 + n / 64, 0x80 + n % 64]
  else if n < 0x10000 then [0xE0 + n / 4096, 0x80 + (n / 64) % 64, 0x80 + n % 64]
  else [0xF0 + n / 262144, 0x80 + (n / 4096) % 64, 0x80 + (n / 64) % 64, 0x80 + n % 64]

/-- A byte `urllib.parse.quote` leaves unescaped: unreserved ASCII. -/
def quoteSafe (b : Nat) : Bool :=
  (0x41 ≤ b && b ≤ 0x5A) || (0x61 ≤ b && b ≤ 0x7A) || (0x30 ≤ b && b ≤ 0x39) ||
  b = 0x5F || b = 0x2E || b = 0x2D || b = 0x7E

/-- `urllib.parse.quote` on a slash-free piece: percent-encode every UTF-8
byte outside the unreserved set. -/
def pyQuote (s : Str) : Str :=
  s.flatMap (fun c =>
    (utf8Bytes c).flatMap (fun b =>
      if quoteSafe b then [Char.ofNat b] else ['%', hexDigit (b / 16), hexDigit (b % 16)]))

/-- `jupyter_server.utils.url_escape`: split on `/`, quote every part, rejoin. -/
def url_escape (s : Str) : Str :=
  joinChars '/' ((splitChars '/' s).map pyQuote)

/-- A filesystem snapshot: a directory with its listing in `iterdir` order
(entry name paired with the entry), or a plain file with its byte content. -/
inductive FSNode where
  | dir (children : List (Str × FSNode))
  | file (content : Str)

/-- Resolve one name inside a directory listing. -/
def childLookup (s : Str) (cs : List (Str × FSNode)) : Option FSNode :=
  match cs.find? (fun c => c.1 == s) with
  | some c => some c.2
  | none => none

/-- Resolve a relative path (list of segments) against what is at the export
root (`none` models a nonexistent root). -/
def lookupPath (fs : Option FSNode) : List Str → Option FSNode
  | [] => fs
  | s :: rest =>
    match fs with
    | some (FSNode.dir cs) => lookupPath (childLookup s cs) rest
    | _ => none

mutual

/-- Number of filesystem entries in a tree (strictly exceeds its height). -/
def fsSize : FSNode → Nat
  | .file _ => 1
  | .dir cs => 1 + fsListSize cs

/-- `fsSize` summed over a listing. -/
def fsListSize : List (Str × FSNode) → Nat
  | [] => 0
  | c :: rest => 1 + fsSize c.2 + fsListSize rest

end

/-- Size of the tree at the export root, used to bound recursion depth. -/
def osize : Option FSNode → Nat
  | none => 0
  | some n => fsSize n

/-- The partial jupyter-server contents dictionaries built by
`path_to_content`: `directory` carries `name`, `path` and the sorted
`content` list; `notebook` carries the rewritten `name` and `path`. -/
inductive PContent where
  | directory (name : Str) (path : Str) (content : List PContent)
  | notebook (name : Str) (path : Str)

/-- The `name` entry of a contents dictionary (the sort key `i['name']`). -/
def pname : PContent → Str
  | .directory n _ _ => n
  | .notebook n _ => n

/-- Sort key order used by `sorted(content, key=lambda i: i['name'])`. -/
def contentLe (a b : PContent) : Bool := strLe (pname a) (pname b)

/-- Stable insertion into a sorted list: an element inserted from the left
goes before later elements with an equal key, matching Python's stable sort. -/
def insertByName (a : PContent) : List PContent → List PContent
  | [] => [a]
  | b :: l => if contentLe a b then a :: b :: l else b :: insertByName a l

/-- Stable sort by `name`, modelling `sorted(content, key=lambda i: i['name'])`. -/
def sortByName : List PContent → List PContent
  | [] => []
  | a :: l => insertByName a (sortByName l)

/-- Adjacent-pairs sortedness check for a `content` listing. -/
def sortedByNameB : List PContent → Bool
  | [] => true
  | [_] => true
  | a :: b :: l => contentLe a b && sortedByNameB (b :: l)

mutual

/-- Every directory node in a contents tree has its listing sorted by name. -/
def allSortedB : PContent → Bool
  | .notebook _ _ => true
  | .directory _ _ items => sortedByNameB items && allSortedListB items

/-- `allSortedB` over a listing. -/
def allSortedListB : List PContent → Bool
  | [] => true
  | c :: l => allSortedB c && allSortedListB l

end

/-- `str(path.relative_to(relative_to))` for a relative segment list: the
empty path prints as `"."`, otherwise segments are joined with `/`. -/
def relStr (segs : List Str) : Str :=
  if segs = [] then ['.'] else joinChars '/' segs

mutual

/-- `path_to_content(path, relative_to)` on an existing entry.  Arguments:
the filesystem node at the path, the final component of the path
(`path.name`), and the path's segments relative to the export root.  A
directory classifies every child and sorts the results; the comprehension's
`if subitem is not None` tests the `Path` object (never `None`), so `None`
results of unclassifiable children are kept, and `sorted`'s key function
then raises `TypeError` on them.  A `.ipynb` file becomes a `notebook` dict
with the stem-preserving `.html` rewrite; any other file is `None`. -/
def path_to_content_node : FSNode → Str → List Str → Except Str (Option PContent)
  | .file _, name, rel =>
    if pSuffix name = ".ipynb".toList then
      .ok (some (.notebook (pStem name ++ ".html".toList)
        (relStr (rel.dropLast ++ [pStem name ++ ".html".toList]))))
    else .ok none
  | .dir cs, name, rel =>
    match children_contents cs rel with
    | .error e => .error e
    | .ok content =>
      if content.any Option.isNone then .error "TypeError".toList
      else .ok (some (.directory (pStem name) (relStr rel)
        (sortByName (content.filterMap id))))

/-- The list comprehension over `path.iterdir()`, classifying every child in
listing order (a child's classification may itself raise). -/
def children_contents : List (Str × FSNode) → List Str → Except Str (List (Option PContent))
  | [], _ => .ok []
  | c :: rest, rel =>
    match path_to_content_node c.2 c.1 (rel ++ [c.1]) with
    | .error e => .error e
    | .ok x =>
      match children_contents rest rel with
      | .error e => .error e
      | .ok xs => .ok (x :: xs)

end

/-- `path_to_content` on a path that may not exist: a nonexistent path is
neither a directory nor a file, so both `if` guards fail and the result is
`None`. -/
def path_to_content : Option FSNode → Str → List Str → Except Str (Option PContent)
  | none, _, _ => .ok none
  | some n, name, rel => path_to_content_node n name rel

/-- `VoiciTreeExporter.generate_breadcrumbs`: split the page's path argument
on `/`; the first entry is `(url_path_join(base_url, 'voila/tree'), '')`; each
truthy part contributes `(url_path_join(base_url, 'voila/tree',
url_escape(url_path_join(*parts[:i+1]))), parts[i])`. -/
def generate_breadcrumbs (base_url : Str) (pathArg : Str) : List (Str × Str) :=
  let parts := splitChars '/' pathArg
  (url_path_join [base_url, "voila/tree".toList], []) ::
    (List.range parts.length).filterMap (fun i =>
      let part := parts.getD i []
      if part ≠ [] then
        some (url_path_join [base_url, "voila/tree".toList,
          url_escape (url_path_join (parts.take (i + 1)))], part)
      else none)

/-- `VoiciTreeExporter.generate_page_title`: split the page's path argument on
`/`, keep the last two parts when more than three exist, join with
`url_path_join`, append a trailing `/` when non-empty, else `'Voici Home'`. -/
def generate_page_title (pathArg : Str) : Str :=
  let parts := splitChars '/' pathArg
  let parts := if parts.length > 3 then parts.drop (parts.length - 2) else parts
  let page_title := url_path_join parts
  if page_title ≠ [] then page_title ++ "/".toList else "Voici Home".toList

/-- One export run's fixed data: the node at the export root (`none` when the
root does not exist), the segments of the root path string handed to the
driver (`[]` models the default `''`), the base URL, and the two external
collaborators: the Jinja `tree.html` template (receiving the contents model,
page title and breadcrumbs) and the notebook render engine
(`VoiciExporter.from_filename`, receiving the path it is asked to open and
the bytes found there).  The notebook path is opened relative to the process
working directory; the model takes that directory to be the export root, the
configuration under which the relative paths the driver derives are
meaningful. -/
structure ExportEnv where
  fs : Option FSNode
  rootSegs : List Str
  base_url : Str
  tmpl : Option PContent → Str → List (Str × Str) → Str
  rend : Str → Str → Str

/-- `Path(path).name` for the driver's current path: the last segment of
root-plus-relative (empty for the default root `''`). -/
def entryName (env : ExportEnv) (p : List Str) : Str :=
  match (env.rootSegs ++ p).getLast? with
  | some s => s
  | none => []

/-- `str(path)` for the driver's current path argument: the raw root string
at the top, the root joined with the relative segments below it. -/
def argStr (env : ExportEnv) (p : List Str) : Str :=
  if env.rootSegs = [] ∧ p = [] then [] else joinChars '/' (env.rootSegs ++ p)

/-- Python `path.replace('.html', '.ipynb')`: replace every (non-overlapping,
leftmost-first) occurrence of `.html`. -/
def replaceHtml : Str → Str
  | '.' :: 'h' :: 't' :: 'm' :: 'l' :: rest => ".ipynb".toList ++ replaceHtml rest
  | c :: rest => c :: replaceHtml rest
  | [] => []

/-- `VoiciTreeExporter.generate_contents` at the directory `p` (segments
relative to the export root): classify the tree at the current path, yield
the index page, then walk the sorted children in order — a notebook child is
re-opened at `file['path'].replace('.html', '.ipynb')` and rendered, a
directory child recurses at `Path(path) / file['name']`.  The result is the
list of `(output path, content)` pairs the generator yielded before it
finished (`none`) or raised (`some error`); once an error occurs the loop
contributes nothing further, matching exception propagation.  The `fuel`
argument only bounds the recursion depth so the definition is total; the
entry point `generate_contents` supplies more fuel than any reachable
recursion can consume. -/
def genAux : Nat → ExportEnv → List Str → List (Str × Str) × Option Str
  | 0, _, _ => ([], some "FUEL".toList)
  | fuel + 1, env, p =>
    match path_to_content (lookupPath env.fs p) (entryName env p) p with
    | .error e => ([], some e)
    | .ok contents =>
      let indexArt := (joinChars '/' (["tree".toList] ++ p ++ ["index.html".toList]),
        env.tmpl contents (generate_page_title (argStr env p))
          (generate_breadcrumbs env.base_url (argStr env p)))
      match contents with
      | none => ([indexArt], some "TypeError".toList)
      | some (.notebook _ _) => ([indexArt], some "KeyError".toList)
      | some (.directory _ _ items) =>
        let looped := items.foldl (fun acc item =>
          match acc.2 with
          | some _ => acc
          | none =>
            match item with
            | .notebook _ nbOut =>
              let notebook_path := replaceHtml nbOut
              match lookupPath env.fs (splitChars '/' notebook_path) with
              | some (.file content) =>
                (acc.1 ++ [(joinChars '/' ["render".toList, nbOut],
                  env.rend notebook_path content)], none)
              | some (.dir _) => (acc.1, some "IsADirectoryError".toList)
              | none => (acc.1, some "FileNotFoundError".toList)
            | .directory nm _ _ =>
              let sub := genAux fuel env (p ++ [nm])
              (acc.1 ++ sub.1, sub.2)) ([], none)
        (indexArt :: looped.1, looped.2)

/-- The whole export of one run: drive `genAux` from the root with enough
fuel for the deepest reachable recursion. -/
def generate_contents (env : ExportEnv) : List (Str × Str) × Option Str :=
  genAux (osize env.fs + 1) env []


/-- The pattern `'.html'` searched by `str.replace`. -/
def patHtml : Str := ".html".toList

/-- Whether `'.html'` occurs as a substring (`'.html' in s`). -/
def hasHtml : Str → Bool
  | '.' :: 'h' :: 't' :: 'm' :: 'l' :: _ => true
  | _ :: rest => hasHtml rest
  | [] => false

/-- A template collaborator returning a fixed page, for concrete runs. -/
def plainTmpl : Option PContent → Str → List (Str × Str) → Str := fun _ _ _ => "T".toList

/-- A template collaborator echoing the breadcrumb labels, to observe the
breadcrumb sequence a page was rendered with. -/
def labelTmpl : Option PContent → Str → List (Str × Str) → Str :=
  fun _ _ bc => joinChars ',' (bc.map Prod.snd)

/-- A render collaborator echoing the bytes of the opened notebook. -/
def plainRend : Str → Str → Str := fun _ c => c

/-- An export environment over a given root with the plain collaborators. -/
def plainEnv (fs : Option FSNode) (rs : List Str) : ExportEnv :=
  { fs := fs, rootSegs := rs, base_url := [], tmpl := plainTmpl, rend := plainRend }

/-! ## Helper lemmas: the stable sort -/

/-- `strLe` is total. -/
theorem strLe_total (a b : Str) : strLe a b = true ∨ strLe b a = true := by
  induction a generalizing b with
  | nil => left; rfl
  | cons c as ih =>
    cases b with
    | nil => right; rfl
    | cons d bs =>
      by_cases h : c = d
      · subst h
        rcases ih bs with h' | h'
        · left; simpa [strLe] using h'
        · right; simpa [strLe] using h'
      · rcases lt_or_gt_of_ne h with hlt | hlt
        · left; simp [strLe, h, hlt]
        · right; simp [strLe, Ne.symm h, hlt]

/-- `contentLe` is total. -/
theorem contentLe_total (a b : PContent) : contentLe a b = true ∨ contentLe b a = true :=
  strLe_total (pname a) (pname b)

/-- Inserting into a sorted listing keeps it sorted. -/
theorem sortedByNameB_insert (a : PContent) (l : List PContent)
    (h : sortedByNameB l = true) : sortedByNameB (insertByName a l) = true := by
  induction l with
  | nil => rfl
  | cons b l ih =>
    simp only [insertByName]
    by_cases hab : contentLe a b = true
    · simpa [sortedByNameB, hab] using h
    · have hba : contentLe b a = true := by
        rcases contentLe_total a b with h' | h'
        · exact absurd h' hab
        · exact h'
      simp only [hab, if_false]
      cases l with
      | nil => simp [sortedByNameB, insertByName, hba]
      | cons c l' =>
        have hbc : contentLe b c = true := by
          simp only [sortedByNameB, Bool.and_eq_true] at h; exact h.1
        have hl : sortedByNameB (c :: l') = true := by
          simp only [sortedByNameB, Bool.and_eq_true] at h; exact h.2
        have hins := ih hl
        simp only [insertByName] at hins ⊢
        by_cases hac : contentLe a c = true
        · simp only [hac, if_true] at hins ⊢
          simp [sortedByNameB, hba, hac, hl]
        · simp only [hac, if_false] at hins ⊢
          simp only [sortedByNameB, Bool.and_eq_true]
          exact ⟨hbc, hins⟩

/-- The output of the stable sort is sorted. -/
theorem sortedByNameB_sortByName (l : List PContent) :
    sortedByNameB (sortByName l) = true := by
  induction l with
  | nil => rfl
  | cons a l ih => exact sortedByNameB_insert a (sortByName l) ih

/-- Membership in an insertion. -/
theorem mem_insertByName {x a : PContent} {l : List PContent} :
    x ∈ insertByName a l ↔ x = a ∨ x ∈ l := by
  induction l with
  | nil => simp [insertByName]
  | cons b l ih =>
    simp only [insertByName]
    by_cases hab : contentLe a b = true
    · simp [hab]
    · simp [hab, ih]
      tauto

/-- Sorting does not change the members of a listing. -/
theorem mem_sortByName {x : PContent} {l : List PContent} :
    x ∈ sortByName l ↔ x ∈ l := by
  induction l with
  | nil => simp [sortByName]
  | cons a l ih =>
    simp only [sortByName, mem_insertByName, ih, List.mem_cons]

/-- `allSortedListB` is the pointwise check. -/
theorem allSortedListB_eq_true {l : List PContent} :
    allSortedListB l = true ↔ ∀ x ∈ l, allSortedB x = true := by
  induction l with
  | nil => simp [allSortedListB]
  | cons c l ih =>
    simp [allSortedListB, ih]

mutual

/-- A successful classification of an existing entry yields a contents tree
whose every directory listing is sorted. -/
theorem allSorted_node : ∀ (n : FSNode) (name : Str) (rel : List Str) (c : PContent),
    path_to_content_node n name rel = .ok (some c) → allSortedB c = true
  | .file f, name, rel, c, h => by
    simp only [path_to_content_node] at h
    split at h
    · injection h with h1
      injection h1 with h2
      subst h2
      rfl
    · simp at h
  | .dir cs, name, rel, c, h => by
    simp only [path_to_content_node] at h
    split at h
    · simp at h
    · rename_i content heq
      split at h
      · simp at h
      · injection h with h1
        injection h1 with h2
        subst h2
        simp only [allSortedB, Bool.and_eq_true]
        refine ⟨sortedByNameB_sortByName _, ?_⟩
        rw [allSortedListB_eq_true]
        intro x hx
        rw [mem_sortByName, List.mem_filterMap] at hx
        obtain ⟨a, ha, hax⟩ := hx
        simp only [id_eq] at hax
        subst hax
        exact allSorted_children cs rel content heq x ha

/-- Every classified child in a listing has all its directories sorted. -/
theorem allSorted_children : ∀ (cs : List (Str × FSNode)) (rel : List Str)
    (xs : List (Option PContent)),
    children_contents cs rel = .ok xs → ∀ c, some c ∈ xs → allSortedB c = true
  | [], rel, xs, h, c, hm => by
    simp only [children_contents] at h
    injection h with h1
    subst h1
    simp at hm
  | e :: rest, rel, xs, h, c, hm => by
    simp only [children_contents] at h
    split at h
    · simp at h
    · rename_i x heq1
      split at h
      · simp at h
      · rename_i xs' heq2
        injection h with h1
        subst h1
        rcases List.mem_cons.mp hm with hx | hx
        · rw [← hx] at heq1
          exact allSorted_node e.2 e.1 (rel ++ [e.1]) c heq1
        · exact allSorted_children rest rel xs' heq2 c hx

end

/-! ## Helper lemmas: splitting and joining paths -/

/-- `splitChars` never returns the empty list of fields. -/
theorem splitChars_ne_nil (sep : Char) (s : Str) : splitChars sep s ≠ [] := by
  cases s with
  | nil => simp [splitChars]
  | cons c rest =>
    simp only [splitChars]
    split
    · simp
    · split <;> simp

/-- Splitting a separator-free string gives one field. -/
theorem splitChars_noslash (sep : Char) (s : Str) (h : sep ∉ s) :
    splitChars sep s = [s] := by
  induction s with
  | nil => rfl
  | cons c rest ih =>
    have hc : ¬(c = sep) := fun e => h (by simp [e])
    have hr : sep ∉ rest := fun m => h (by simp [m])
    simp only [splitChars]
    rw [ih hr]
    simp [hc]

/-- Splitting past a leading separator-free field peels it off. -/
theorem splitChars_append_sep (sep : Char) (s t : Str) (h : sep ∉ s) :
    splitChars sep (s ++ sep :: t) = s :: splitChars sep t := by
  induction s with
  | nil =>
    simp only [List.nil_append, splitChars]
    cases hsp : splitChars sep t with
    | nil => exact absurd hsp (splitChars_ne_nil sep t)
    | cons a l => simp
  | cons c s' ih =>
    have hc : ¬(c = sep) := fun e => h (by simp [e])
    have hs' : sep ∉ s' := fun m => h (by simp [m])
    simp only [List.cons_append, splitChars, List.append_eq]
    rw [ih hs']
    simp [hc]

/-- `split` is a left inverse of `join` on nonempty separator-free fields. -/
theorem splitChars_joinChars (sep : Char) (segs : List Str) (hne : segs ≠ [])
    (h : ∀ s ∈ segs, sep ∉ s) : splitChars sep (joinChars sep segs) = segs := by
  induction segs with
  | nil => cases hne rfl
  | cons s rest ih =>
    cases rest with
    | nil => exact splitChars_noslash sep s (h s (by simp))
    | cons s2 r2 =>
      show splitChars sep (s ++ sep :: joinChars sep (s2 :: r2)) = _
      rw [splitChars_append_sep sep s _ (h s (by simp))]
      rw [ih (by simp) (fun x hx => h x (by simp [hx]))]

/-- The head of a joined list is the head of its first field. -/
theorem joinChars_head (sep : Char) (s : Str) (rest : List Str) (h : s ≠ []) :
    (joinChars sep (s :: rest)).head? = s.head? := by
  cases rest <;> cases s <;> simp_all [joinChars]

/-- A joined list with a nonempty first field is nonempty. -/
theorem joinChars_ne_nil (sep : Char) (s : Str) (rest : List Str) (h : s ≠ []) :
    joinChars sep (s :: rest) ≠ [] := by
  cases rest <;> cases s <;> simp_all [joinChars]

/-- Stripping slashes is the identity on slash-free strings. -/
theorem stripSlash_eq_self (s : Str) (h : '/' ∉ s) : stripSlash s = s := by
  unfold stripSlash
  have h1 : s.dropWhile (fun c => c = '/') = s := by
    cases s with
    | nil => rfl
    | cons c rest =>
      have hc : ¬(c = '/') := fun e => h (by simp [e])
      simp [List.dropWhile_cons, hc]
  rw [h1]
  have h2 : s.reverse.dropWhile (fun c => c = '/') = s.reverse := by
    cases hs : s.reverse with
    | nil => rfl
    | cons c rest =>
      have hc : c ∈ s := by
        rw [← List.mem_reverse, hs]; simp
      have hcs : ¬(c = '/') := fun e => h (e ▸ hc)
      simp [List.dropWhile_cons, hcs]
  rw [h2, List.reverse_reverse]

/-- Stripping slashes fixes a list of slash-free pieces. -/
theorem map_stripSlash_eq (pieces : List Str) (h : ∀ s ∈ pieces, '/' ∉ s) :
    pieces.map stripSlash = pieces := by
  induction pieces with
  | nil => rfl
  | cons a l ih =>
    simp only [List.map_cons, List.cons.injEq]
    exact ⟨stripSlash_eq_self a (h a (by simp)), ih (fun s hs => h s (by simp [hs]))⟩

/-- On nonempty slash-free pieces, `url_path_join` is a plain join. -/
theorem url_path_join_eq_joinChars (pieces : List Str) (hne : pieces ≠ [])
    (h : ∀ s ∈ pieces, s ≠ [] ∧ '/' ∉ s) :
    url_path_join pieces = joinChars '/' pieces := by
  unfold url_path_join
  rw [if_neg hne]
  have hmap : pieces.map stripSlash = pieces := map_stripSlash_eq pieces (fun s hs => (h s hs).2)
  have hfil : pieces.filter (fun s => s ≠ []) = pieces := by
    rw [List.filter_eq_self]
    intro s hs
    simp [(h s hs).1]
  have hin : ¬((pieces.headD []).head? = some '/') := by
    cases pieces with
    | nil => cases hne rfl
    | cons a l =>
      cases ha : a with
      | nil => exact absurd ha (h a (by simp)).1
      | cons c cs =>
        have hc : ¬(c = '/') := fun e => (h a (by simp)).2 (by simp [ha, e])
        simp [ha, hc]
  have hfin : ¬((pieces.getLastD []).getLast? = some '/') := by
    intro hlast
    have hmem : pieces.getLastD [] ∈ pieces := by
      cases pieces with
      | nil => cases hne rfl
      | cons a l =>
        rw [List.getLastD_eq_getLast?]
        rcases hgl : (a :: l).getLast? with _ | x
        · simp at hgl
        · simpa using List.mem_of_getLast?_eq_some hgl
    have hsl : '/' ∈ pieces.getLastD [] := List.mem_of_getLast?_eq_some hlast
    exact (h _ hmem).2 hsl
  simp only [hmap, hfil, hin, if_false, hfin]
  have hjoin : joinChars '/' pieces ≠ "//".toList := by
    cases pieces with
    | nil => cases hne rfl
    | cons a l =>
      intro e
      have hh := joinChars_head '/' a l (h a (by simp)).1
      rw [e] at hh
      have hh' : some '/' = a.head? := by simpa using hh
      cases ha : a with
      | nil => exact (h a (by simp)).1 ha
      | cons c cs =>
        rw [ha] at hh'
        simp only [List.head?_cons] at hh'
        injection hh' with h0
        exact (h a (by simp)).2 (by simp [ha, ← h0])
  split
  · rename_i e
    exact absurd e hjoin
  · rfl

/-- A `filterMap` over `range` whose guard always fires is a `map`. -/
theorem filterMap_range_eq_map {α : Type} (n : Nat) (f : Nat → α) (g : Nat → Option α)
    (h : ∀ i < n, g i = some (f i)) :
    (List.range n).filterMap g = (List.range n).map f := by
  induction n with
  | zero => rfl
  | succ n ih =>
    rw [List.range_succ, List.filterMap_append, List.map_append,
      ih (fun i hi => h i (by omega))]
    simp [h n (by omega)]

/-! ## Helper lemmas: stems and suffixes -/

/-- No dot, no last-dot index. -/
theorem lastDotIdx_none (s : Str) (h : '.' ∉ s) : lastDotIdx s = none := by
  induction s with
  | nil => rfl
  | cons c rest ih =>
    have hc : ¬(c = '.') := fun e => h (by simp [e])
    simp only [lastDotIdx, ih (fun m => h (by simp [m])), hc]
    simp

/-- The last dot of `st ++ '.' :: tail` with a dot-free tail sits at `|st|`. -/
theorem lastDotIdx_append (st tail : Str) (h : '.' ∉ tail) :
    lastDotIdx (st ++ '.' :: tail) = some st.length := by
  induction st with
  | nil =>
    simp only [List.nil_append, lastDotIdx, lastDotIdx_none tail h]
    simp
  | cons c st' ih =>
    have hstep : lastDotIdx (c :: (st' ++ '.' :: tail)) =
        match lastDotIdx (st' ++ '.' :: tail) with
        | some i => some (i + 1)
        | none => if c = '.' then some 0 else none := rfl
    rw [List.cons_append, hstep, ih]
    simp

/-- The stem of `stem.ipynb` is the stem, for a nonempty stem. -/
theorem pStem_ipynb (st : Str) (h : st ≠ []) :
    pStem (st ++ ".ipynb".toList) = st := by
  have hidx : lastDotIdx (st ++ ".ipynb".toList) = some st.length := by
    rw [show (".ipynb".toList : Str) = '.' :: "ipynb".toList from rfl]
    exact lastDotIdx_append st _ (by decide)
  unfold pStem
  rw [hidx]
  show (if 0 < st.length ∧ st.length < (st ++ ".ipynb".toList).length - 1
      then (st ++ ".ipynb".toList).take st.length
      else st ++ ".ipynb".toList) = st
  have hcond : 0 < st.length ∧ st.length < (st ++ ".ipynb".toList).length - 1 := by
    refine ⟨List.length_pos.mpr h, ?_⟩
    simp [List.length_append]
  rw [if_pos hcond]
  exact List.take_left st _

/-- The suffix of `stem.ipynb` is `.ipynb`, for a nonempty stem. -/
theorem pSuffix_ipynb (st : Str) (h : st ≠ []) :
    pSuffix (st ++ ".ipynb".toList) = ".ipynb".toList := by
  have hidx : lastDotIdx (st ++ ".ipynb".toList) = some st.length := by
    rw [show (".ipynb".toList : Str) = '.' :: "ipynb".toList from rfl]
    exact lastDotIdx_append st _ (by decide)
  unfold pSuffix
  rw [hidx]
  show (if 0 < st.length ∧ st.length < (st ++ ".ipynb".toList).length - 1
      then (st ++ ".ipynb".toList).drop st.length
      else []) = ".ipynb".toList
  have hcond : 0 < st.length ∧ st.length < (st ++ ".ipynb".toList).length - 1 := by
    refine ⟨List.length_pos.mpr h, ?_⟩
    simp [List.length_append]
  rw [if_pos hcond]
  exact List.drop_left st _

/-! ## Helper lemmas: the `.html` replacement -/

/-- Unfolding `hasHtml = false` on a cons cell. -/
theorem hasHtml_cons_false {c : Char} {rest : Str} (h : hasHtml (c :: rest) = false) :
    hasHtml rest = false ∧ ∀ t : Str, c :: rest ≠ '.' :: 'h' :: 't' :: 'm' :: 'l' :: t := by
  rw [hasHtml.eq_def] at h
  split at h
  · cases h
  · rename_i hd tl hno heq
    injection heq with h1 h2
    subst h1
    subst h2
    refine ⟨h, ?_⟩
    intro t ht
    injection ht with e1 e2
    exact hno t e1 e2
  · rename_i heq
    cases heq

/-- `replaceHtml` steps over a position where the pattern does not match. -/
theorem replaceHtml_cons_ne (c : Char) (rest : Str)
    (hne : ∀ t, c :: rest ≠ '.' :: 'h' :: 't' :: 'm' :: 'l' :: t) :
    replaceHtml (c :: rest) = c :: replaceHtml rest := by
  rw [replaceHtml.eq_def]
  split
  · rename_i t heq
    exact absurd heq (hne t)
  · rename_i hd tl hno heq
    injection heq with h1 h2
    rw [h1, h2]
  · rename_i heq
    cases heq

/-- If `.html` does not occur in `A`, then replacing in `A ++ ".html"`
rewrites exactly the final occurrence (no occurrence of the pattern can end
strictly inside the appended suffix, since only its last character is `l`). -/
theorem replaceHtml_append (A : Str) (h : hasHtml A = false) :
    replaceHtml (A ++ patHtml) = A ++ ".ipynb".toList := by
  induction A with
  | nil => rfl
  | cons c A' ih =>
    obtain ⟨hA', hne⟩ := hasHtml_cons_false h
    have hne' : ∀ t, c :: (A' ++ patHtml) ≠ '.' :: 'h' :: 't' :: 'm' :: 'l' :: t := by
      intro t heq
      rcases A' with _ | ⟨a1, _ | ⟨a2, _ | ⟨a3, _ | ⟨a4, A5⟩⟩⟩⟩
      · simp [patHtml] at heq
      · simp [patHtml] at heq
      · simp [patHtml] at heq
      · simp [patHtml] at heq
      · simp only [List.cons_append, List.cons.injEq] at heq
        obtain ⟨rfl, rfl, rfl, rfl, rfl, -⟩ := heq
        exact hne A5 rfl
    rw [List.cons_append, replaceHtml_cons_ne c _ hne', ih hA']
    rfl

/-! ## Claim theorems -/

/-- Claim C1 (code bug): exporting a tree that contains any plain
non-notebook file raises `TypeError` inside the classifier (the `None`
classification of `readme.txt` reaches `sorted`) before the first yield, so
the artifact sequence is empty even though the root directory should have
produced an index artifact. -/
theorem claim1_export_raises_on_plain_file :
    generate_contents (plainEnv
        (some (.dir [("readme.txt".toList, .file "hi".toList)])) []) =
      ([], some "TypeError".toList) := rfl

/-- Claim C2 (code bug): the classifier returns `None` for a plain file as
claimed, but the entry is not silently excluded from the parent: a directory
containing only that file classifies to `TypeError`, not to a directory with
an empty listing, because the comprehension's filter tests the `Path` object
instead of the classification result. -/
theorem claim2_plain_file_crashes_parent :
    path_to_content (some (.file "x".toList)) "notes.txt".toList ["notes.txt".toList] =
        .ok none ∧
    path_to_content (some (.dir [("notes.txt".toList, .file "x".toList)]))
        "root".toList [] = .error "TypeError".toList :=
  ⟨rfl, rfl⟩

/-- On an invalid root (nonexistent path or plain file) the driver yields
the root index artifact from the non-directory classification result and
then raises when subscripting it. -/
theorem genAux_invalid_root (k : Nat) (fs : Option FSNode) (rs : List Str) (b : Str)
    (tf : Option PContent → Str → List (Str × Str) → Str) (rf : Str → Str → Str)
    (h : fs = none ∨ ∃ c, fs = some (FSNode.file c)) :
    (genAux (k + 1) ⟨fs, rs, b, tf, rf⟩ []).2.isSome = true ∧
    (genAux (k + 1) ⟨fs, rs, b, tf, rf⟩ []).1.map Prod.fst = ["tree/index.html".toList] := by
  rcases h with hfs | ⟨c, hfs⟩ <;> subst hfs
  · exact ⟨rfl, rfl⟩
  · by_cases hsuf : pSuffix (entryName ⟨some (FSNode.file c), rs, b, tf, rf⟩ []) =
        ".ipynb".toList
    · constructor
      · simp only [genAux, lookupPath, path_to_content, path_to_content_node]
        rw [if_pos hsuf]
        rfl
      · simp only [genAux, lookupPath, path_to_content, path_to_content_node]
        rw [if_pos hsuf]
        rfl
    · constructor
      · simp only [genAux, lookupPath, path_to_content, path_to_content_node]
        rw [if_neg hsuf]
        rfl
      · simp only [genAux, lookupPath, path_to_content, path_to_content_node]
        rw [if_neg hsuf]
        rfl

/-- Claim C5 counterexample: for a nonexistent export root the artifact
sequence is not empty — the driver yields one index artifact (rendered from
the `None` contents model) and only then raises `TypeError`. -/
theorem claim5_invalid_root_cex :
    generate_contents (plainEnv none ["gone".toList]) =
      ([("tree/index.html".toList, "T".toList)], some "TypeError".toList) ∧
    (generate_contents (plainEnv none ["gone".toList])).1 ≠ [] :=
  ⟨rfl, by decide⟩

/-- Claim C5 (amended): on an invalid export root (nonexistent or a plain
file) the export does fail, but the failure occurs after exactly one
artifact — the root index at `tree/index.html` — has been yielded; there is
no assertion before the first yield. -/
theorem claim5_invalid_root_amended (env : ExportEnv)
    (h : env.fs = none ∨ ∃ c, env.fs = some (FSNode.file c)) :
    (generate_contents env).2.isSome = true ∧
    (generate_contents env).1.map Prod.fst = ["tree/index.html".toList] := by
  obtain ⟨fs, rs, b, tf, rf⟩ := env
  exact genAux_invalid_root (osize fs) fs rs b tf rf h

/-- Witness for C5: the amended theorem applied at a concrete nonexistent
root. -/
theorem claim5_invalid_root_amended_witness :
    (generate_contents (plainEnv none ["gone2".toList])).2.isSome = true ∧
    (generate_contents (plainEnv none ["gone2".toList])).1.map Prod.fst =
      ["tree/index.html".toList] :=
  claim5_invalid_root_amended (plainEnv none ["gone2".toList]) (Or.inl rfl)

/-- The classification of a `.ipynb` file: the stem is preserved and the
extension is rewritten to `.html` in both the name and the relative path. -/
theorem notebook_classification (st : Str) (ds : List Str) (c : Str) (hst : st ≠ []) :
    path_to_content (some (FSNode.file c)) (st ++ ".ipynb".toList)
        (ds ++ [st ++ ".ipynb".toList]) =
      .ok (some (PContent.notebook (st ++ ".html".toList)
        (relStr (ds ++ [st ++ ".html".toList])))) := by
  show path_to_content_node (FSNode.file c) _ _ = _
  simp only [path_to_content_node]
  rw [if_pos (pSuffix_ipynb st hst), pStem_ipynb st hst, List.dropLast_concat]

/-- Claim C6: a `.ipynb` file classifies to a `notebook` node whose output
path is the relative source path with the extension replaced by `.html` and
the stem kept exactly; and the driver run over `root/sub/nb.ipynb` emits the
rendered artifact at `render/sub/nb.html`. -/
theorem claim6_notebook_output_path :
    (∀ (st : Str) (ds : List Str) (c : Str), st ≠ [] →
      path_to_content (some (FSNode.file c)) (st ++ ".ipynb".toList)
          (ds ++ [st ++ ".ipynb".toList]) =
        .ok (some (PContent.notebook (st ++ ".html".toList)
          (relStr (ds ++ [st ++ ".html".toList]))))) ∧
    generate_contents (plainEnv
        (some (.dir [("sub".toList, .dir [("nb.ipynb".toList, .file "NB".toList)])])) []) =
      ([("tree/index.html".toList, "T".toList),
        ("tree/sub/index.html".toList, "T".toList),
        ("render/sub/nb.html".toList, "NB".toList)], none) :=
  ⟨fun st ds c h => notebook_classification st ds c h, rfl⟩

/-- Witness for C6: the general part applied to `nb.ipynb` at the root. -/
theorem claim6_notebook_output_path_witness :
    path_to_content (some (FSNode.file "C".toList)) "nb.ipynb".toList
        ["nb.ipynb".toList] =
      .ok (some (PContent.notebook "nb.html".toList (relStr ["nb.html".toList]))) :=
  claim6_notebook_output_path.1 "nb".toList [] "C".toList (by decide)

/-- Claim C7: the page title of the empty path is the fixed home title; for
a joined nonempty path it is the segments joined with `/` and a trailing
`/`, keeping only the last two segments when more than three exist. -/
theorem claim7_page_title :
    generate_page_title [] = "Voici Home".toList ∧
    ∀ segs : List Str, segs ≠ [] → (∀ s ∈ segs, s ≠ [] ∧ '/' ∉ s) →
      generate_page_title (joinChars '/' segs) =
        joinChars '/' (if segs.length > 3 then segs.drop (segs.length - 2) else segs) ++
          "/".toList := by
  constructor
  · rfl
  · intro segs hne h
    simp only [generate_page_title]
    rw [splitChars_joinChars '/' segs hne (fun s hs => (h s hs).2)]
    have hsub : ∀ s ∈ (if segs.length > 3 then segs.drop (segs.length - 2) else segs),
        s ≠ [] ∧ '/' ∉ s := by
      intro s hs
      by_cases hgt : segs.length > 3
      · rw [if_pos hgt] at hs
        exact h s (List.mem_of_mem_drop hs)
      · rw [if_neg hgt] at hs
        exact h s hs
    have hne' : (if segs.length > 3 then segs.drop (segs.length - 2) else segs) ≠ [] := by
      by_cases hgt : segs.length > 3
      · rw [if_pos hgt]
        intro e
        have := List.drop_eq_nil_iff.mp e
        omega
      · rw [if_neg hgt]
        exact hne
    rw [url_path_join_eq_joinChars _ hne' hsub]
    have hj : joinChars '/'
        (if segs.length > 3 then segs.drop (segs.length - 2) else segs) ≠ [] := by
      rcases he : (if segs.length > 3 then segs.drop (segs.length - 2) else segs) with
        _ | ⟨a, l⟩
      · exact absurd he hne'
      · exact joinChars_ne_nil '/' a l (hsub a (by rw [he]; simp)).1
    rw [if_pos hj]

/-- Witness for C7: the last-two-segments rule at `a/b/c/d`. -/
theorem claim7_page_title_witness :
    generate_page_title (joinChars '/' ["a".toList, "b".toList, "c".toList, "d".toList]) =
      joinChars '/' (if (["a".toList, "b".toList, "c".toList, "d".toList] : List Str).length > 3
        then (["a".toList, "b".toList, "c".toList, "d".toList] : List Str).drop
          ((["a".toList, "b".toList, "c".toList, "d".toList] : List Str).length - 2)
        else ["a".toList, "b".toList, "c".toList, "d".toList]) ++ "/".toList :=
  claim7_page_title.2 ["a".toList, "b".toList, "c".toList, "d".toList]
    (by decide) (by decide)

/-- `joinChars` over a nonempty tail. -/
theorem joinChars_cons (sep : Char) (d : Str) (rest : List Str) (h : rest ≠ []) :
    joinChars sep (d :: rest) = d ++ sep :: joinChars sep rest := by
  cases rest with
  | nil => cases h rfl
  | cons a l => rfl

/-- Appending to the last field commutes with joining. -/
theorem joinChars_last_append (sep : Char) (ds : List Str) (x s : Str) :
    joinChars sep (ds ++ [x ++ s]) = joinChars sep (ds ++ [x]) ++ s := by
  induction ds with
  | nil => simp [joinChars]
  | cons d ds' ih =>
    rw [List.cons_append, joinChars_cons sep d _ (by simp),
      List.cons_append, joinChars_cons sep d _ (by simp), ih]
    simp

/-- `relStr` of a nonempty segment list is the plain join. -/
theorem relStr_of_ne_nil (segs : List Str) (h : segs ≠ []) :
    relStr segs = joinChars '/' segs := by
  simp [relStr, h]

/-- Claim C4 counterexample: for the notebook `x.html.ipynb` the rewrite
produces output path `x.html.html`, and the driver's inversion
(`replace('.html', '.ipynb')` replaces every occurrence) maps it to
`x.ipynb.ipynb`, not back to the source path; the export consequently fails
to open a notebook that exists. -/
theorem claim4_rewrite_not_inverted_cex :
    path_to_content (some (.file "N".toList)) "x.html.ipynb".toList
        ["x.html.ipynb".toList] =
      .ok (some (.notebook "x.html.html".toList "x.html.html".toList)) ∧
    replaceHtml "x.html.html".toList = "x.ipynb.ipynb".toList ∧
    "x.ipynb.ipynb".toList ≠ "x.html.ipynb".toList ∧
    generate_contents (plainEnv
        (some (.dir [("x.html.ipynb".toList, .file "N".toList)])) []) =
      ([("tree/index.html".toList, "T".toList)], some "FileNotFoundError".toList) :=
  ⟨rfl, rfl, by decide, rfl⟩

/-- Claim C4 (amended): the driver derives the source path by replacing
every occurrence of `.html` with `.ipynb` in the rewritten output path;
composed with the classifier's rewrite this recovers exactly the original
relative source path whenever `.html` does not occur in that path minus its
extension (the joined directories and stem). -/
theorem claim4_rewrite_inverse_amended (ds : List Str) (st : Str) (c : Str)
    (hst : st ≠ []) (hocc : hasHtml (joinChars '/' (ds ++ [st])) = false) :
    path_to_content (some (FSNode.file c)) (st ++ ".ipynb".toList)
        (ds ++ [st ++ ".ipynb".toList]) =
      .ok (some (PContent.notebook (st ++ ".html".toList)
        (joinChars '/' (ds ++ [st ++ ".html".toList])))) ∧
    replaceHtml (joinChars '/' (ds ++ [st ++ ".html".toList])) =
      joinChars '/' (ds ++ [st ++ ".ipynb".toList]) := by
  constructor
  · rw [notebook_classification st ds c hst,
      relStr_of_ne_nil _ (by simp : ds ++ [st ++ ".html".toList] ≠ [])]
  · rw [joinChars_last_append '/' ds st ".html".toList,
      joinChars_last_append '/' ds st ".ipynb".toList,
      show (".html".toList : Str) = patHtml from rfl,
      replaceHtml_append _ hocc]

/-- Witness for C4: the amended inversion at the root-level notebook
`nb.ipynb`. -/
theorem claim4_rewrite_inverse_amended_witness :
    path_to_content (some (FSNode.file "C".toList)) ("nb".toList ++ ".ipynb".toList)
        ([] ++ ["nb".toList ++ ".ipynb".toList]) =
      .ok (some (PContent.notebook ("nb".toList ++ ".html".toList)
        (joinChars '/' ([] ++ ["nb".toList ++ ".html".toList])))) ∧
    replaceHtml (joinChars '/' ([] ++ ["nb".toList ++ ".html".toList])) =
      joinChars '/' ([] ++ ["nb".toList ++ ".ipynb".toList]) :=
  claim4_rewrite_inverse_amended [] "nb".toList "C".toList (by decide) (by decide)

/-- Claim C8: every contents tree produced by a successful classification
has, at every depth, its directory listing sorted ascending by `name`. -/
theorem claim8_children_sorted (fs : Option FSNode) (name : Str) (rel : List Str)
    (c : PContent) (h : path_to_content fs name rel = .ok (some c)) :
    allSortedB c = true := by
  cases fs with
  | none => simp [path_to_content] at h
  | some n => exact allSorted_node n name rel c h

/-- Witness for C8: a two-notebook directory listed out of order classifies
to a sorted listing. -/
theorem claim8_children_sorted_witness :
    allSortedB (PContent.directory "r".toList ".".toList
      [PContent.notebook "a.html".toList "a.html".toList,
       PContent.notebook "b.html".toList "b.html".toList]) = true :=
  claim8_children_sorted
    (some (.dir [("b.ipynb".toList, .file []), ("a.ipynb".toList, .file [])]))
    "r".toList [] _ rfl

/-- Claim C9: the export is deterministic — two runs over equal filesystem
snapshots with the same configuration and extensionally equal collaborators
classify identically and produce byte-identical artifact sequences. -/
theorem claim9_deterministic (e1 e2 : ExportEnv) (name : Str) (rel : List Str)
    (hfs : e1.fs = e2.fs) (hrs : e1.rootSegs = e2.rootSegs)
    (hb : e1.base_url = e2.base_url)
    (ht : ∀ c t bc, e1.tmpl c t bc = e2.tmpl c t bc)
    (hr : ∀ p c, e1.rend p c = e2.rend p c) :
    path_to_content e1.fs name rel = path_to_content e2.fs name rel ∧
    generate_contents e1 = generate_contents e2 := by
  obtain ⟨fs1, rs1, b1, t1, r1⟩ := e1
  obtain ⟨fs2, rs2, b2, t2, r2⟩ := e2
  simp only at hfs hrs hb ht hr
  subst hfs
  subst hrs
  subst hb
  have ht' : t1 = t2 := funext fun c => funext fun t => funext fun bc => ht c t bc
  have hr' : r1 = r2 := funext fun p => funext fun c => hr p c
  subst ht'
  subst hr'
  exact ⟨rfl, rfl⟩

/-- Witness for C9: two identical runs at a concrete snapshot. -/
theorem claim9_deterministic_witness :
    path_to_content (plainEnv (some (.dir [])) []).fs "r".toList [] =
      path_to_content (plainEnv (some (.dir [])) []).fs "r".toList [] ∧
    generate_contents (plainEnv (some (.dir [])) []) =
      generate_contents (plainEnv (some (.dir [])) []) :=
  claim9_deterministic (plainEnv (some (.dir [])) []) (plainEnv (some (.dir [])) [])
    "r".toList [] rfl rfl rfl (fun _ _ _ => rfl) (fun _ _ => rfl)

/-- Claim C10 counterexample: the subdirectory `.cfg` has a dot in its name,
yet its pathlib stem equals its name, so the recursion targets the existing
path: the traversal reaches it, emits its index artifact and finishes
without raising — the dot alone does not break the traversal. -/
theorem claim10_dotted_name_traverses_cex :
    generate_contents (plainEnv (some (.dir [(".cfg".toList, .dir [])])) []) =
      ([("tree/index.html".toList, "T".toList),
        ("tree/.cfg/index.html".toList, "T".toList)], none) ∧
    '.' ∈ ".cfg".toList :=
  ⟨rfl, by decide⟩

/-- Claim C10 (amended): the name recorded for a directory is the pathlib
stem of its filesystem name (the last dot-suffix stripped only when the dot
is interior), and the driver recurses on that recorded name; for a
subdirectory whose stem differs from its name (such as `sub.v1`, recorded
as `sub`) with no sibling entry named like the stem, the recursion resolves
a nonexistent path — the run yields a bogus index for the missing path and
raises instead of reaching the subdirectory's content. -/
theorem claim10_stem_recursion_amended :
    (∀ (fs : Option FSNode) (name : Str) (rel : List Str) (nm pth : Str)
        (items : List PContent),
      path_to_content fs name rel = .ok (some (.directory nm pth items)) →
      nm = pStem name) ∧
    generate_contents (plainEnv
        (some (.dir [("sub.v1".toList, .dir [("nb.ipynb".toList, .file "N".toList)])])) []) =
      ([("tree/index.html".toList, "T".toList),
        ("tree/sub/index.html".toList, "T".toList)], some "TypeError".toList) := by
  constructor
  · intro fs name rel nm pth items h
    cases fs with
    | none => simp [path_to_content] at h
    | some n =>
      cases n with
      | file f =>
        simp only [path_to_content, path_to_content_node] at h
        split at h
        · simp at h
        · simp at h
      | dir cs =>
        simp only [path_to_content, path_to_content_node] at h
        split at h
        · simp at h
        · split at h
          · simp at h
          · injection h with h1
            injection h1 with h2
            injection h2 with e1 e2 e3
            exact e1.symm
  · rfl

/-- Witness for C10: the recorded-name part applied to a directory named
`d.v`, whose recorded name is the stem `d`. -/
theorem claim10_stem_recursion_amended_witness :
    "d".toList = pStem "d.v".toList :=
  claim10_stem_recursion_amended.1 (some (.dir [])) "d.v".toList [] "d".toList
    ".".toList [] rfl

/-- Claim C3 counterexample: exporting with root path `myroot` and a
breadcrumb-observing template, the root index page (relative path empty) is
rendered with a breadcrumb whose label is the export root's own segment
`myroot` — the claim's derivation from the relative path alone would give
only the empty-labelled root entry (serialised `""`). -/
theorem claim3_root_segments_in_breadcrumbs_cex :
    generate_contents (ExportEnv.mk (some (.dir [])) ["myroot".toList] []
        labelTmpl plainRend) =
      ([("tree/index.html".toList, ",myroot".toList)], none) ∧
    ",myroot".toList ≠ joinChars ',' [([] : Str)] :=
  ⟨rfl, by decide⟩

/-- Claim C3 (amended): breadcrumbs are derived from the driver's full path
argument — the export root joined with the relative path — not from the
relative path alone: after the fixed root entry there is one entry per
non-empty segment of root-plus-relative, entry `i` linking the base URL
joined with the `voila/tree` prefix and the URL-escaped join of segments
`0..i` (only that joined portion escaped, never the base URL).  For a
nonempty export root the entries therefore do contain the root's own
segments; the claimed shape holds exactly when the export root is the empty
path. -/
theorem claim3_breadcrumbs_amended (env : ExportEnv) (p : List Str)
    (h : ∀ s ∈ env.rootSegs ++ p, s ≠ [] ∧ '/' ∉ s) :
    generate_breadcrumbs env.base_url (argStr env p) =
      (url_path_join [env.base_url, "voila/tree".toList], []) ::
        (List.range (env.rootSegs ++ p).length).map (fun i =>
          (url_path_join [env.base_url, "voila/tree".toList,
            url_escape (url_path_join ((env.rootSegs ++ p).take (i + 1)))],
          (env.rootSegs ++ p).getD i [])) := by
  by_cases hsegs : env.rootSegs ++ p = []
  · have hb := List.append_eq_nil.mp hsegs
    have hargs : argStr env p = [] := by
      unfold argStr
      rw [if_pos hb]
    rw [hargs, hsegs]
    rfl
  · have hargs : argStr env p = joinChars '/' (env.rootSegs ++ p) := by
      unfold argStr
      rw [if_neg (fun hb => hsegs (by rw [hb.1, hb.2]; rfl))]
    rw [hargs]
    simp only [generate_breadcrumbs]
    rw [splitChars_joinChars '/' _ hsegs (fun s hs => (h s hs).2)]
    congr 1
    apply filterMap_range_eq_map
    intro i hi
    have hmem : (env.rootSegs ++ p).getD i [] ∈ env.rootSegs ++ p := by
      rw [List.getD_eq_getElem?_getD, List.getElem?_eq_getElem hi]
      exact List.getElem_mem hi
    rw [if_pos ((h _ hmem).1)]

/-- Witness for C3: the amended derivation at export root `myroot` and
relative path `a` — the root's segment appears among the entries. -/
theorem claim3_breadcrumbs_amended_witness :
    generate_breadcrumbs (plainEnv (some (.dir [])) ["myroot".toList]).base_url
        (argStr (plainEnv (some (.dir [])) ["myroot".toList]) ["a".toList]) =
      (url_path_join [(plainEnv (some (.dir [])) ["myroot".toList]).base_url,
        "voila/tree".toList], []) ::
        (List.range (((plainEnv (some (.dir [])) ["myroot".toList]).rootSegs ++
            ["a".toList]).length)).map (fun i =>
          (url_path_join [(plainEnv (some (.dir [])) ["myroot".toList]).base_url,
            "voila/tree".toList,
            url_escape (url_path_join
              (((plainEnv (some (.dir [])) ["myroot".toList]).rootSegs ++
                ["a".toList]).take (i + 1)))],
          ((plainEnv (some (.dir [])) ["myroot".toList]).rootSegs ++
            ["a".toList]).getD i [])) :=
  claim3_breadcrumbs_amended (plainEnv (some (.dir [])) ["myroot".toList]) ["a".toList]
    (by decide)
